import Mathlib

/-!
Verification of the context-core engine (document identity, cache builder,
loader and selection pipeline) against its specification.

Modelling conventions:
* Rust `String` values become Lean `String`s.  Rust byte-wise string
  comparison coincides with Lean's code-point-wise order, because UTF-8 byte
  order agrees with scalar-value order.
* The external SHA-256 implementation (the `sha2` crate) is a parameter
  `sha : List Nat → List Nat` of the development; every statement below is
  proved for an arbitrary digest function.  Hex encoding (the `hex` crate)
  and UTF-8 encoding are modelled concretely.
* 32-bit float scores are embedded as exact rationals (`Rat`); the score
  formula is `integer / integer` and the comparisons in scope are exact.
* Filesystem effects are modelled as data: a successful build is the record
  of bytes the builder writes (minus the informational `created_at` field),
  and the loader reads through an explicit `fs` function supplied by the
  environment.
-/

namespace ContextCore

/-- Lower-case hexadecimal digit character (0-9, a-f). -/
def hexDigitChar (n : Nat) : Char :=
  if n < 10 then Char.ofNat (48 + n) else Char.ofNat (87 + n)

/-- Lower-case hex encoding of a byte sequence, as the `hex` crate's
`hex::encode` produces. -/
def hexEncode (bs : List Nat) : String :=
  List.asString ((bs.map (fun b => [hexDigitChar ((b / 16) % 16), hexDigitChar (b % 16)])).flatten)

/-- Standard UTF-8 encoding of one scalar value. -/
def utf8EncodeChar (c : Char) : List Nat :=
  let n := c.toNat
  if n < 128 then [n]
  else if n < 2048 then [192 + n / 64, 128 + n % 64]
  else if n < 65536 then [224 + n / 4096, 128 + (n / 64) % 64, 128 + n % 64]
  else [240 + n / 262144, 128 + (n / 4096) % 64, 128 + (n / 64) % 64, 128 + n % 64]

/-- UTF-8 bytes of a string (Rust's `str::as_bytes`). -/
def utf8Encode (s : String) : List Nat :=
  (s.toList.map utf8EncodeChar).flatten

/-- Simple lower-casing of one character.  This is the fragment of Unicode
simple case mapping covering ASCII and Latin-1; Rust's `str::to_lowercase`
agrees with it on those ranges (the full Unicode table is elided, and all
inputs considered below stay within these ranges). -/
def charToLower (c : Char) : Char :=
  let n := c.toNat
  if 65 ≤ n ∧ n ≤ 90 then Char.ofNat (n + 32)
  else if (192 ≤ n ∧ n ≤ 214) ∨ (216 ≤ n ∧ n ≤ 222) then Char.ofNat (n + 32)
  else c

/-- Rust `str::to_lowercase` (on the character ranges modelled). -/
def toLowercase (s : String) : String :=
  List.asString (s.toList.map charToLower)

/-- ASCII-only lower-casing (A-Z ↦ a-z, all other characters unchanged). -/
def asciiCharToLower (c : Char) : Char :=
  if 65 ≤ c.toNat ∧ c.toNat ≤ 90 then Char.ofNat (c.toNat + 32) else c

/-- ASCII-only lower-casing of a string. -/
def asciiLowercase (s : String) : String :=
  List.asString (s.toList.map asciiCharToLower)

/-- Whitespace test: the ASCII fragment of Rust's `char::is_whitespace`
(Unicode-only whitespace code points are elided; all inputs considered below
are ASCII). -/
def isWhitespaceChar (c : Char) : Bool :=
  c = ' ' || c = '\t' || c = '\n' || c = '\r'

/-- Worker for `splitWhitespace`; `acc` holds the current word reversed. -/
def splitWhitespaceAux : List Char → List Char → List String
  | [], acc => if acc.isEmpty then [] else [List.asString acc.reverse]
  | c :: rest, acc =>
    if isWhitespaceChar c then
      if acc.isEmpty then splitWhitespaceAux rest []
      else List.asString acc.reverse :: splitWhitespaceAux rest []
    else splitWhitespaceAux rest (c :: acc)

/-- Rust `str::split_whitespace`: maximal non-whitespace runs, no empties. -/
def splitWhitespace (s : String) : List String :=
  splitWhitespaceAux s.toList []

/-- `p` dropped from the front of `s` if it is a prefix, else `none`. -/
def dropPrefixChars : List Char → List Char → Option (List Char)
  | [], s => some s
  | _ :: _, [] => none
  | p :: ps, c :: cs => if p = c then dropPrefixChars ps cs else none

/-- Rust `str::strip_prefix` (named to avoid clashing with list lemmas). -/
def stripPrefixStr (p s : String) : Option String :=
  (dropPrefixChars p.toList s.toList).map List.asString

/-- First `n` characters of a string (Rust's `&s[..n]` on ASCII input, where
bytes and characters coincide; all version strings in scope are ASCII hex). -/
def takeStr (n : Nat) (s : String) : String :=
  List.asString (s.toList.take n)

/-- `MetadataValue`: untagged string-or-integer metadata values. -/
inductive MetadataValue where
  | str (s : String)
  | num (n : Int)
deriving DecidableEq

/-- `Document`: the atomic unit of content.  `DocumentId` and
`DocumentVersion` are transparent newtypes over strings in the source and are
inlined here; `Metadata` is a key-sorted map, modelled as an association list
(none of the claims below depend on metadata contents). -/
structure Document where
  id : String
  version : String
  source : String
  content : String
  metadata : List (String × MetadataValue)
deriving DecidableEq

/-- `DocumentVersion::from_content`: `"sha256:" ++ hex(sha256(bytes))`. -/
def fromContent (sha : List Nat → List Nat) (content : String) : String :=
  "sha256:" ++ hexEncode (sha (utf8Encode content))

/-- `CacheBuildConfig { version, hash_algorithm }`. -/
structure CacheBuildConfig where
  version : String
  hash_algorithm : String
deriving DecidableEq

/-- JSON string-character escaping as `serde_json` performs it. -/
def jsonEscapeChar (c : Char) : List Char :=
  if c = '"' then ['\\', '"']
  else if c = '\\' then ['\\', '\\']
  else if c.toNat = 8 then ['\\', 'b']
  else if c.toNat = 12 then ['\\', 'f']
  else if c = '\n' then ['\\', 'n']
  else if c = '\r' then ['\\', 'r']
  else if c = '\t' then ['\\', 't']
  else if c.toNat < 32 then ['\\', 'u', '0', '0', hexDigitChar (c.toNat / 16), hexDigitChar (c.toNat % 16)]
  else [c]

/-- A JSON string literal: quoted and escaped. -/
def jsonString (s : String) : String :=
  "\"" ++ List.asString ((s.toList.map jsonEscapeChar).flatten) ++ "\""

/-- `serde_json::to_vec(&config)`: compact JSON in declaration field order. -/
def configJson (c : CacheBuildConfig) : String :=
  "\x7b\"version\":" ++ jsonString c.version ++ ",\"hash_algorithm\":" ++
    jsonString c.hash_algorithm ++ "\x7d"

/-- `ManifestDocumentEntry { id, version, file }`. -/
structure ManifestDocumentEntry where
  id : String
  version : String
  file : String
deriving DecidableEq

/-- Build-time error taxonomy.  `Io` and `Serialization` wrap external
failures outside the model; `OutputExists` concerns a pre-existing output
directory, a filesystem condition also outside the model. -/
inductive CacheBuildError where
  | FilenameCollision (fragment : String)
  | DuplicateDocumentId (id : String)
  | InvalidVersionFormat (version : String)
deriving DecidableEq

/-- Sorting relation of the builder: ascending document id. -/
def idLe (a b : Document) : Prop := a.id ≤ b.id

instance : DecidableRel idLe := fun a b =>
  decidable_of_iff (a.id.toList ≤ b.id.toList) String.le_iff_toList_le.symm

instance : IsTotal Document idLe := ⟨fun a b => le_total a.id b.id⟩

instance : IsTrans Document idLe := ⟨fun _ _ _ h h' => le_trans h h'⟩

/-- Strict version of `idLe`, used to exploit uniqueness of ids. -/
def idLt (a b : Document) : Prop := a.id < b.id

instance : IsTrans Document idLt := ⟨fun _ _ _ h h' => lt_trans h h'⟩

instance : IsAntisymm Document idLt :=
  ⟨fun _ _ h h' => absurd h' (lt_asymm h)⟩

/-- Step 1 of `CacheBuilder::build`: sort by id (Rust's stable `sort_by`,
modelled by stable insertion sort). -/
def sortDocs (documents : List Document) : List Document :=
  List.insertionSort idLe documents

/-- Step 1b of `CacheBuilder::build`: first adjacent pair of equal ids in the
sorted list, if any. -/
def findAdjacentDup : List Document → Option String
  | a :: b :: rest => if a.id = b.id then some a.id else findAdjacentDup (b :: rest)
  | _ => none

/-- The per-document body of the builder loop: version-format check,
filename-stem derivation and collision check against the stems already
taken (`seen`).  Returns the stem and the manifest entry. -/
def processDoc (seen : List String) (doc : Document) :
    Except CacheBuildError (String × ManifestDocumentEntry) :=
  match stripPrefixStr "sha256:" doc.version with
  | none => .error (.InvalidVersionFormat doc.version)
  | some full_hash =>
    if full_hash.length < 12 then .error (.FilenameCollision full_hash)
    else
      let filename_stem := takeStr 12 full_hash
      if filename_stem ∈ seen then .error (.FilenameCollision filename_stem)
      else
        let relative_path := "documents/" ++ (filename_stem ++ ".json")
        .ok (filename_stem, { id := doc.id, version := doc.version, file := relative_path })

/-- Step 2 of `CacheBuilder::build`, the per-document loop: feed
`id ++ ":" ++ version` to the hasher, run the per-document checks, and
accumulate the manifest entry and index row for each document.  `hbytes` is
the byte stream fed to the version hasher so far. -/
def processDocs (seen : List String) (hbytes : List Nat) :
    List Document →
    Except CacheBuildError (List Nat × List (Document × ManifestDocumentEntry) × List (String × String))
  | [] => .ok (hbytes, [], [])
  | doc :: rest =>
    let hbytes' := hbytes ++ utf8Encode (doc.id ++ ":" ++ doc.version)
    match processDoc seen doc with
    | .error e => .error e
    | .ok (filename_stem, entry) =>
      match processDocs (filename_stem :: seen) hbytes' rest with
      | .error e => .error e
      | .ok (hb, ctxs, idx) =>
        .ok (hb, (doc, entry) :: ctxs, (doc.id, entry.file) :: idx)

/-- Sorting relation for the manifest's "sort again to be safe" step. -/
def entryLe (a b : ManifestDocumentEntry) : Prop := a.id ≤ b.id

instance : DecidableRel entryLe := fun a b =>
  decidable_of_iff (a.id.toList ≤ b.id.toList) String.le_iff_toList_le.symm

instance : IsTotal ManifestDocumentEntry entryLe := ⟨fun a b => le_total a.id b.id⟩

instance : IsTrans ManifestDocumentEntry entryLe := ⟨fun _ _ _ h h' => le_trans h h'⟩

/-- The manifest re-sort of step 3. -/
def sortEntries (entries : List ManifestDocumentEntry) : List ManifestDocumentEntry :=
  List.insertionSort entryLe entries

/-- Everything a successful build writes, except `created_at` (informational
wall-clock time) and the staging/rename mechanics.  `index` is the
`BTreeMap`'s contents; entries are inserted in ascending-id order with unique
ids, so insertion order here equals the map's key order.  Payload files hold
the compact JSON serialization of each `Document`; the `Document` itself is
kept, serialization being a function of it. -/
structure BuildOutput where
  cache_version : String
  document_count : Nat
  documents : List ManifestDocumentEntry
  index : List (String × String)
  payloads : List (String × Document)
deriving DecidableEq

/-- `CacheBuilder::build` after the input sort: duplicate-id check, the
per-document loop, cache-version finalization and manifest assembly. -/
def buildSorted (sha : List Nat → List Nat) (config : CacheBuildConfig)
    (sorted_docs : List Document) : Except CacheBuildError BuildOutput :=
  match findAdjacentDup sorted_docs with
  | some i => .error (.DuplicateDocumentId i)
  | none =>
    match processDocs [] (utf8Encode (configJson config)) sorted_docs with
    | .error e => .error e
    | .ok (hbytes, doc_contexts, index_entries) =>
      let cache_version := "sha256:" ++ hexEncode (sha hbytes)
      let manifest_documents := sortEntries (doc_contexts.map (fun x => x.2))
      .ok { cache_version := cache_version
            document_count := sorted_docs.length
            documents := manifest_documents
            index := index_entries
            payloads := doc_contexts.map (fun x => (x.2.file, x.1)) }

/-- `CacheBuilder::build`: sort by id, then the staged pipeline above. -/
def build (sha : List Nat → List Nat) (config : CacheBuildConfig)
    (documents : List Document) : Except CacheBuildError BuildOutput :=
  buildSorted sha config (sortDocs documents)

/-- `Query { raw, terms }`. -/
structure Query where
  raw : String
  terms : List String
deriving DecidableEq

/-- `Query::new`: lower-case and split on whitespace. -/
def queryNew (raw : String) : Query :=
  { raw := raw, terms := splitWhitespace (toLowercase raw) }

/-- `ScoreDetails { query_terms, term_matches, total_words }`. -/
structure ScoreDetails where
  query_terms : List String
  term_matches : Nat
  total_words : Nat
deriving DecidableEq

/-- `TermFrequencyScorer::score`: lower-case the content, split on
whitespace, and count one match per (word, query term) pair. -/
def score (doc : Document) (query : Query) : ScoreDetails :=
  let content_lower := toLowercase doc.content
  let words := splitWhitespace content_lower
  let total_words := words.length
  let term_matches :=
    if total_words = 0 ∨ query.terms = [] then 0
    else (words.map (fun word => query.terms.countP (fun term => word == term))).sum
  { query_terms := query.terms, term_matches := term_matches, total_words := total_words }

/-- `Scorer::score_value`, the f32 division `term_matches / total_words`
embedded as exact division in the rationals. -/
def scoreValue (details : ScoreDetails) : ℚ :=
  if details.total_words = 0 then 0
  else (details.term_matches : ℚ) / (details.total_words : ℚ)

/-- `ApproxTokenCounter::count_tokens`: `0` for the empty string, otherwise
`ceil(byte_length / 4)` where `byte_length` counts UTF-8 bytes. -/
def countTokens (content : String) : Nat :=
  if content = "" then 0 else ((utf8Encode content).length + 3) / 4

/-- Internal `ScoredDocument`. -/
structure ScoredDocument where
  document : Document
  score : ℚ
  score_details : ScoreDetails
  token_count : Nat
deriving DecidableEq

/-- `SelectionWhy { query_terms, term_matches, total_words }`. -/
structure SelectionWhy where
  query_terms : List String
  term_matches : Nat
  total_words : Nat
deriving DecidableEq

/-- `SelectedDocument`: one admitted output row. -/
structure SelectedDocument where
  id : String
  version : String
  content : String
  score : ℚ
  tokens : Nat
  why : SelectionWhy
deriving DecidableEq

/-- `SelectionMetadata`. -/
structure SelectionMetadata where
  query : String
  budget : Nat
  tokens_used : Nat
  documents_considered : Nat
  documents_selected : Nat
  documents_excluded_by_budget : Nat
deriving DecidableEq

/-- `SelectionResult { documents, selection }`. -/
structure SelectionResult where
  documents : List SelectedDocument
  selection : SelectionMetadata
deriving DecidableEq

/-- `BudgetResult` of `apply_budget`. -/
structure BudgetResult where
  selected : List SelectedDocument
  tokens_used : Nat
  documents_selected : Nat
  documents_excluded_by_budget : Nat
deriving DecidableEq

/-- The output row `apply_budget` pushes for an admitted document. -/
def toSelected (sdoc : ScoredDocument) : SelectedDocument :=
  { id := sdoc.document.id
    version := sdoc.document.version
    content := sdoc.document.content
    score := sdoc.score
    tokens := sdoc.token_count
    why := { query_terms := sdoc.score_details.query_terms
             term_matches := sdoc.score_details.term_matches
             total_words := sdoc.score_details.total_words } }

/-- `apply_budget`'s loop, with `tokens_used` as explicit accumulator
(`used` is its value when the head candidate is considered). -/
def applyBudgetAux (budget : Nat) : List ScoredDocument → Nat → BudgetResult
  | [], used =>
    { selected := [], tokens_used := used
      documents_selected := 0, documents_excluded_by_budget := 0 }
  | sdoc :: rest, used =>
    if used + sdoc.token_count ≤ budget then
      let r := applyBudgetAux budget rest (used + sdoc.token_count)
      { r with selected := toSelected sdoc :: r.selected
               documents_selected := r.documents_selected + 1 }
    else
      let r := applyBudgetAux budget rest used
      { r with documents_excluded_by_budget := r.documents_excluded_by_budget + 1 }

/-- `apply_budget`: single admission pass starting from zero tokens used. -/
def applyBudget (scored_docs : List ScoredDocument) (budget : Nat) : BudgetResult :=
  applyBudgetAux budget scored_docs 0

/-- The selector's ordering: descending score, ties broken by ascending id.
(The comparator's NaN fallback is unreachable here: scores are rationals.) -/
def scoredLe (a b : ScoredDocument) : Prop :=
  b.score < a.score ∨ (a.score = b.score ∧ a.document.id ≤ b.document.id)

instance : DecidableRel scoredLe := fun a b =>
  haveI : Decidable (a.document.id ≤ b.document.id) :=
    decidable_of_iff (a.document.id.toList ≤ b.document.id.toList) String.le_iff_toList_le.symm
  inferInstanceAs (Decidable (b.score < a.score ∨ (a.score = b.score ∧ a.document.id ≤ b.document.id)))

instance : IsTotal ScoredDocument scoredLe := ⟨fun a b => by
  rcases lt_trichotomy a.score b.score with h | h | h
  · exact Or.inr (Or.inl h)
  · rcases le_total a.document.id b.document.id with h' | h'
    · exact Or.inl (Or.inr ⟨h, h'⟩)
    · exact Or.inr (Or.inr ⟨h.symm, h'⟩)
  · exact Or.inl (Or.inl h)⟩

instance : IsTrans ScoredDocument scoredLe := ⟨by
  rintro a b c (h | ⟨h1, h2⟩) (h' | ⟨h1', h2'⟩)
  · exact Or.inl (lt_trans h' h)
  · exact Or.inl (by rw [← h1']; exact h)
  · exact Or.inl (by rw [h1]; exact h')
  · exact Or.inr ⟨h1.trans h1', h2.trans h2'⟩⟩

/-- The scoring phase's per-document step: details, score and token count. -/
def scoreDoc (query : Query) (doc : Document) : ScoredDocument :=
  let details := score doc query
  { document := doc, score := scoreValue details, score_details := details
    token_count := countTokens doc.content }

/-- `ContextSelector::select` after a successful load: the score, order,
budget and output-assembly phases. -/
def selectLoaded (loaded_docs : List Document) (query : Query) (budget : Nat) : SelectionResult :=
  let scored_docs := loaded_docs.map (scoreDoc query)
  let sorted := List.insertionSort scoredLe scored_docs
  let br := applyBudget sorted budget
  { documents := br.selected
    selection := { query := query.raw, budget := budget
                   tokens_used := br.tokens_used
                   documents_considered := loaded_docs.length
                   documents_selected := br.documents_selected
                   documents_excluded_by_budget := br.documents_excluded_by_budget } }

/-- Loader error kinds.  `ioError` stands for any `io::Error` whose kind is
not `InvalidData` (e.g. a failed open); `invalidData` carries the message of
an `InvalidData`-kind error.  Parse failures are wrapped into `InvalidData`
by the loader, so a failing parse is an `invalidData` value of `fs`. -/
inductive LoadError where
  | ioError (tag : String)
  | invalidData (msg : String)
deriving DecidableEq

/-- `ContextCache::load_documents` over an explicit filesystem: `fs path` is
the parsed `Document` of the payload file at `path`, or the open/parse
error.  Entries are read in manifest order; each payload must agree with its
manifest entry on id and on the version recomputed from its content. -/
def loadDocuments (sha : List Nat → List Nat) (fs : String → Except LoadError Document)
    (root : String) : List ManifestDocumentEntry → Except LoadError (List Document)
  | [] => .ok []
  | entry :: rest =>
    match fs (root ++ "/" ++ entry.file) with
    | .error e => .error e
    | .ok doc =>
      if doc.id ≠ entry.id then .error (.invalidData "Document ID mismatch")
      else
        let expected_version := fromContent sha doc.content
        if expected_version ≠ entry.version then
          .error (.invalidData ("Document version mismatch for " ++ entry.id ++
            ": manifest says " ++ entry.version ++ ", content hashes to " ++ expected_version))
        else
          match loadDocuments sha fs root rest with
          | .error e => .error e
          | .ok docs => .ok (doc :: docs)

/-- Selection error taxonomy. -/
inductive SelectionError where
  | InvalidBudget (budget : Nat)
  | CacheError
deriving DecidableEq

/-- `ContextSelector::select`: load the cache's documents, surfacing any
failure as `CacheError`, then run the pure pipeline. -/
def select (sha : List Nat → List Nat) (fs : String → Except LoadError Document)
    (root : String) (manifest : List ManifestDocumentEntry)
    (query : Query) (budget : Nat) : Except SelectionError SelectionResult :=
  match loadDocuments sha fs root manifest with
  | .error _ => .error .CacheError
  | .ok loaded_docs => .ok (selectLoaded loaded_docs query budget)

/-- A filesystem path as its list of components, each component the raw bytes
of a Unix `OsStr`.  `Path::components`' lazy normalization of `.` segments is
not modelled; a `.` component here stands for a literal leading `./` in the
rendered relative path — exactly the shape the normalizer's trim removes. -/
abbrev PathComps := List (List Nat)

/-- `DocumentIdError`. -/
inductive DocumentIdError where
  | OutsideRoot
  | InvalidUtf8
deriving DecidableEq

/-- `Path::strip_prefix` at component granularity: the remaining components
when `root`'s components are a prefix of the source's. -/
def stripPrefixComps : PathComps → PathComps → Option PathComps
  | [], s => some s
  | _ :: _, [] => none
  | r :: rs, c :: cs => if r = c then stripPrefixComps rs cs else none

/-- Is `b` a UTF-8 continuation byte? -/
def isCont (b : Nat) : Bool := 128 ≤ b && b < 192

/-- UTF-8 decoding with full validation (stray continuations, overlongs,
surrogates and out-of-range values rejected), as Rust's `str::from_utf8` and
`OsStr::to_str` perform. -/
def utf8Decode : List Nat → Option (List Char)
  | [] => some []
  | b :: rest =>
    if b < 128 then (utf8Decode rest).map (fun cs => Char.ofNat b :: cs)
    else if b < 194 then none
    else if b < 224 then
      match rest with
      | b1 :: rest' =>
        if isCont b1 then
          (utf8Decode rest').map (fun cs => Char.ofNat ((b - 192) * 64 + (b1 - 128)) :: cs)
        else none
      | _ => none
    else if b < 240 then
      match rest with
      | b1 :: b2 :: rest' =>
        if (if b = 224 then decide (160 ≤ b1) && decide (b1 < 192) else
            if b = 237 then decide (128 ≤ b1) && decide (b1 < 160) else isCont b1) && isCont b2 then
          (utf8Decode rest').map (fun cs =>
            Char.ofNat ((b - 224) * 4096 + (b1 - 128) * 64 + (b2 - 128)) :: cs)
        else none
      | _ => none
    else if b < 245 then
      match rest with
      | b1 :: b2 :: b3 :: rest' =>
        if (if b = 240 then decide (144 ≤ b1) && decide (b1 < 192) else
            if b = 244 then decide (128 ≤ b1) && decide (b1 < 144) else isCont b1) &&
            isCont b2 && isCont b3 then
          (utf8Decode rest').map (fun cs =>
            Char.ofNat ((b - 240) * 262144 + (b1 - 128) * 4096 + (b2 - 128) * 64 + (b3 - 128)) :: cs)
        else none
      | _ => none
    else none

/-- `rel.to_str()`: decode every component, failing on invalid UTF-8, and
render the path with `/` separators. -/
def compsToStr (comps : PathComps) : Option String :=
  (comps.mapM utf8Decode).map (fun parts => List.asString (List.intercalate ['/'] parts))

/-- `str::replace('\\', "/")`. -/
def replaceBackslash (s : List Char) : List Char :=
  s.map (fun c => if c = '\\' then '/' else c)

/-- `str::trim_start_matches("./")`: every successive leading `./` removed. -/
def trimDotSlash : List Char → List Char
  | '.' :: '/' :: rest => trimDotSlash rest
  | s => s

/-- `normalize_path`: `to_str`, backslash→slash, trim leading `./` runs,
lower-case (Unicode-aware, per `str::to_lowercase`). -/
def normalizePath (rel : PathComps) : Except DocumentIdError String :=
  match compsToStr rel with
  | none => .error .InvalidUtf8
  | some s => .ok (toLowercase (List.asString (trimDotSlash (replaceBackslash s.toList))))

/-- `DocumentId::from_path`: strip the root, then normalize. -/
def fromPath (root source : PathComps) : Except DocumentIdError String :=
  match stripPrefixComps root source with
  | none => .error .OutsideRoot
  | some rel => normalizePath rel

/-- A single leading `./` removed, the claim's literal "a leading `./`
trimmed" (the code's `trim_start_matches` removes every leading run). -/
def trimDotSlashOnce (s : List Char) : List Char :=
  match s with
  | '.' :: '/' :: rest => rest
  | s => s

/-- The claim's reading of `from_path`, spelled from the spec's words: the
same pipeline but trimming only one leading `./` and case-folding letters to
ASCII lower case only. -/
def fromPathSpec (root source : PathComps) : Except DocumentIdError String :=
  match stripPrefixComps root source with
  | none => .error .OutsideRoot
  | some rel =>
    match compsToStr rel with
    | none => .error .InvalidUtf8
    | some s => .ok (asciiLowercase (List.asString (trimDotSlashOnce (replaceBackslash s.toList))))

/-- The output ordering asserted of selection results: non-increasing score,
with ascending ids among equal scores. -/
def selOrder (a b : SelectedDocument) : Prop :=
  b.score ≤ a.score ∧ (a.score = b.score → a.id ≤ b.id)

/-- The hash fragment of a document's version: what follows the `sha256:`
prefix (degenerate value when the prefix is absent; only used under
hypotheses that supply the prefix). -/
def versionFrag (d : Document) : String :=
  match stripPrefixStr "sha256:" d.version with
  | some fh => fh
  | none => ""

/-- The 12-character filename stem derived from a document's version. -/
def versionStem (d : Document) : String :=
  takeStr 12 (versionFrag d)

instance {ε α : Type} [DecidableEq ε] [DecidableEq α] : DecidableEq (Except ε α)
  | .error e, .error e' =>
    if h : e = e' then .isTrue (by rw [h]) else .isFalse (by intro hc; cases hc; exact h rfl)
  | .error _, .ok _ => .isFalse (by intro hc; cases hc)
  | .ok _, .error _ => .isFalse (by intro hc; cases hc)
  | .ok a, .ok a' =>
    if h : a = a' then .isTrue (by rw [h]) else .isFalse (by intro hc; cases hc; exact h rfl)

/-- A stand-in digest function used to instantiate the abstract SHA-256
parameter in concrete witnesses. -/
def toyHash : List Nat → List Nat := fun l => [l.length % 256]

/-- A concrete document whose version is consistent with `toyHash`:
`fromContent toyHash "" = "sha256:00"`. -/
def toyDoc : Document :=
  { id := "a", version := "sha256:00", source := "src", content := "", metadata := [] }

/-- A concrete manifest entry for `toyDoc`. -/
def toyEntry : ManifestDocumentEntry :=
  { id := "a", version := "sha256:00", file := "documents/x.json" }

/-- A concrete filesystem holding exactly `toyDoc`'s payload. -/
def toyFs : String → Except LoadError Document := fun p =>
  if p = "cache/documents/x.json" then .ok toyDoc else .error (.ioError "not found")

/-- A concrete document with non-empty content, consistent with `toyHash`:
`utf8Encode "hello"` has five bytes, so its version hex is `"05"`. -/
def toyDoc2 : Document :=
  { id := "b", version := "sha256:05", source := "src", content := "hello", metadata := [] }

/-- A concrete manifest entry for `toyDoc2`. -/
def toyEntry2 : ManifestDocumentEntry :=
  { id := "b", version := "sha256:05", file := "documents/y.json" }

/-- A concrete filesystem holding exactly `toyDoc2`'s payload. -/
def toyFs2 : String → Except LoadError Document := fun p =>
  if p = "cache/documents/y.json" then .ok toyDoc2 else .error (.ioError "not found")

/-- The canonical v0 build config. -/
def toyConfig : CacheBuildConfig := { version := "1", hash_algorithm := "sha256" }

/-- Concrete well-formed documents for builder witnesses. -/
def toyDocA : Document :=
  { id := "a", version := "sha256:0123456789aa", source := "s", content := "y", metadata := [] }

/-- Second concrete well-formed document, distinct id and stem. -/
def toyDocB : Document :=
  { id := "b", version := "sha256:0123456789ab", source := "s", content := "x", metadata := [] }

/-- A document with the same id as `toyDocA` and a malformed version. -/
def toyDupA : Document :=
  { id := "a", version := "xyz", source := "s", content := "z", metadata := [] }

/-- A document whose version has the `sha256:` prefix but a short fragment. -/
def toyShortDoc : Document :=
  { id := "b", version := "sha256:ab", source := "s", content := "x", metadata := [] }

/-- A document whose version lacks the `sha256:` prefix entirely. -/
def toyBadDoc : Document :=
  { id := "a", version := "xyz", source := "s", content := "y", metadata := [] }

/-! ## Helper lemmas -/

theorem applyBudgetAux_tokens (budget : Nat) (l : List ScoredDocument) :
    ∀ used : Nat, used ≤ budget →
      (applyBudgetAux budget l used).tokens_used ≤ budget ∧
      (applyBudgetAux budget l used).tokens_used
        = used + ((applyBudgetAux budget l used).selected.map (fun d => d.tokens)).sum := by
  induction l with
  | nil => intro used h; simpa [applyBudgetAux] using h
  | cons sdoc rest ih =>
    intro used h
    by_cases hc : used + sdoc.token_count ≤ budget
    · have hr := ih (used + sdoc.token_count) hc
      simp only [applyBudgetAux, if_pos hc, List.map_cons, List.sum_cons, toSelected]
      exact ⟨hr.1, by rw [hr.2]; omega⟩
    · have hr := ih used h
      simpa only [applyBudgetAux, if_neg hc] using hr

theorem applyBudgetAux_selected_shape (budget : Nat) (l : List ScoredDocument) :
    ∀ used : Nat, ∃ sub : List ScoredDocument, sub.Sublist l ∧
      (applyBudgetAux budget l used).selected = sub.map toSelected := by
  induction l with
  | nil => intro used; exact ⟨[], List.Sublist.refl [], by simp [applyBudgetAux]⟩
  | cons sdoc rest ih =>
    intro used
    by_cases hc : used + sdoc.token_count ≤ budget
    · obtain ⟨sub, hs, he⟩ := ih (used + sdoc.token_count)
      exact ⟨sdoc :: sub, hs.cons₂ sdoc, by simp [applyBudgetAux, hc, he]⟩
    · obtain ⟨sub, hs, he⟩ := ih used
      exact ⟨sub, hs.cons sdoc, by simp [applyBudgetAux, hc, he]⟩

theorem applyBudgetAux_selected_length (budget : Nat) (l : List ScoredDocument) :
    ∀ used : Nat,
      (applyBudgetAux budget l used).documents_selected
        = (applyBudgetAux budget l used).selected.length := by
  induction l with
  | nil => intro used; simp [applyBudgetAux]
  | cons sdoc rest ih =>
    intro used
    by_cases hc : used + sdoc.token_count ≤ budget
    · simp only [applyBudgetAux, if_pos hc, List.length_cons]
      rw [ih]
    · simpa only [applyBudgetAux, if_neg hc] using ih used

theorem applyBudget_tokens (l : List ScoredDocument) (budget : Nat) :
    (applyBudget l budget).tokens_used ≤ budget ∧
    (applyBudget l budget).tokens_used
      = ((applyBudget l budget).selected.map (fun d => d.tokens)).sum := by
  have h := applyBudgetAux_tokens budget l 0 (Nat.zero_le _)
  exact ⟨h.1, by simpa using h.2⟩

theorem selectLoaded_tokens (loaded : List Document) (query : Query) (budget : Nat) :
    (selectLoaded loaded query budget).selection.tokens_used ≤ budget ∧
    (selectLoaded loaded query budget).selection.tokens_used
      = ((selectLoaded loaded query budget).documents.map (fun d => d.tokens)).sum := by
  dsimp only [selectLoaded]
  exact applyBudget_tokens _ _

theorem select_ok_iff (sha : List Nat → List Nat) (fs : String → Except LoadError Document)
    (root : String) (manifest : List ManifestDocumentEntry)
    (query : Query) (budget : Nat) (r : SelectionResult) :
    select sha fs root manifest query budget = .ok r ↔
      ∃ loaded, loadDocuments sha fs root manifest = .ok loaded ∧
        r = selectLoaded loaded query budget := by
  unfold select
  cases h : loadDocuments sha fs root manifest with
  | error e => simp
  | ok loaded => simp [eq_comm]

/-- **C4**: for every scored list and budget, `apply_budget` reports
`tokens_used ≤ budget` and `tokens_used` equal to the sum of the admitted
documents' token counts; consequently every `SelectionResult` returned by
`ContextSelector::select` records a `tokens_used` that is at most the budget
and equals the sum of the selected documents' token counts. -/
theorem apply_budget_tokens_bound (scored_docs : List ScoredDocument)
    (sha : List Nat → List Nat) (fs : String → Except LoadError Document)
    (root : String) (manifest : List ManifestDocumentEntry)
    (query : Query) (budget : Nat) :
    (applyBudget scored_docs budget).tokens_used ≤ budget ∧
    (applyBudget scored_docs budget).tokens_used
      = ((applyBudget scored_docs budget).selected.map (fun d => d.tokens)).sum ∧
    ∀ r : SelectionResult, select sha fs root manifest query budget = .ok r →
      r.selection.tokens_used ≤ budget ∧
      r.selection.tokens_used = (r.documents.map (fun d => d.tokens)).sum := by
  refine ⟨(applyBudget_tokens scored_docs budget).1, (applyBudget_tokens scored_docs budget).2, ?_⟩
  intro r hr
  obtain ⟨loaded, _, hre⟩ := (select_ok_iff sha fs root manifest query budget r).mp hr
  subst hre
  exact selectLoaded_tokens loaded query budget

/-- Witness for C4's conditional part, at the concrete toy cache. -/
theorem apply_budget_tokens_bound_witness :
    (select toyHash toyFs "cache" [toyEntry] (queryNew "x") 7).toOption.isSome = true ∧
    ∀ r : SelectionResult, select toyHash toyFs "cache" [toyEntry] (queryNew "x") 7 = .ok r →
      r.selection.tokens_used ≤ 7 ∧
      r.selection.tokens_used = (r.documents.map (fun d => d.tokens)).sum :=
  ⟨by decide, fun r hr =>
    (apply_budget_tokens_bound [] toyHash toyFs "cache" [toyEntry] (queryNew "x") 7).2.2 r hr⟩

/-- **C2** (code bug): with duplicated query terms the v0 scorer counts one
match per (word, query-term) pair, so the one-word document `"a"` scored
against the query `"a a"` (terms `["a", "a"]`) yields `term_matches = 2`,
`total_words = 1` and a score of `2` — outside `[0, 1]`, contradicting the
scorer's own `debug_assert` and the specification. -/
theorem score_value_two_on_duplicate_terms :
    (queryNew "a a").terms = ["a", "a"] ∧
    (score { id := "d", version := "v", source := "s", content := "a", metadata := [] }
      (queryNew "a a")).term_matches = 2 ∧
    (score { id := "d", version := "v", source := "s", content := "a", metadata := [] }
      (queryNew "a a")).total_words = 1 ∧
    scoreValue (score { id := "d", version := "v", source := "s", content := "a", metadata := [] }
      (queryNew "a a")) = 2 ∧
    ¬ scoreValue (score { id := "d", version := "v", source := "s", content := "a", metadata := [] }
      (queryNew "a a")) ≤ 1 := by
  have h1 :
      (score { id := "d", version := "v", source := "s", content := "a", metadata := [] }
        (queryNew "a a")).term_matches = 2 := by decide
  have h2 :
      (score { id := "d", version := "v", source := "s", content := "a", metadata := [] }
        (queryNew "a a")).total_words = 1 := by decide
  have h3 :
      scoreValue (score { id := "d", version := "v", source := "s", content := "a", metadata := [] }
        (queryNew "a a")) = 2 := by
    simp [scoreValue, h1, h2]
  refine ⟨by decide, h1, h2, h3, by rw [h3]; norm_num⟩

theorem utf8EncodeChar_ne_nil (c : Char) : utf8EncodeChar c ≠ [] := by
  simp only [utf8EncodeChar]
  split_ifs <;> simp

theorem countTokens_ne_zero (content : String) (h : content ≠ "") :
    countTokens content ≠ 0 := by
  rw [countTokens, if_neg h]
  have hdata : content.toList ≠ [] := by
    intro hnil
    apply h
    cases content with
    | mk data =>
      simp only [String.toList] at hnil
      rw [show ("" : String) = ⟨[]⟩ from rfl, hnil]
  have hlen : 0 < (utf8Encode content).length := by
    rw [utf8Encode]
    cases htl : content.toList with
    | nil => exact absurd htl hdata
    | cons c cs =>
      simp only [htl, List.map_cons, List.flatten_cons, List.length_append]
      have := List.length_pos.mpr (utf8EncodeChar_ne_nil c)
      omega
  intro hz
  rw [Nat.div_eq_zero_iff (by omega)] at hz
  omega

theorem selectLoaded_documents_mem (loaded : List Document) (query : Query) (budget : Nat) :
    ∀ sd ∈ (selectLoaded loaded query budget).documents,
      ∃ d ∈ loaded, sd = toSelected (scoreDoc query d) := by
  intro sd hsd
  dsimp only [selectLoaded, applyBudget] at hsd
  obtain ⟨sub, hsub, he⟩ := applyBudgetAux_selected_shape budget
    (List.insertionSort scoredLe (loaded.map (scoreDoc query))) 0
  rw [he] at hsd
  obtain ⟨sdoc, hmem, hrfl⟩ := List.mem_map.mp hsd
  have hmem2 : sdoc ∈ List.insertionSort scoredLe (loaded.map (scoreDoc query)) :=
    hsub.mem hmem
  have hmem3 : sdoc ∈ loaded.map (scoreDoc query) :=
    (List.perm_insertionSort scoredLe (loaded.map (scoreDoc query))).mem_iff.mp hmem2
  obtain ⟨d, hd, hde⟩ := List.mem_map.mp hmem3
  exact ⟨d, hd, by rw [← hrfl, ← hde]⟩

theorem selectLoaded_pairwise (loaded : List Document) (query : Query) (budget : Nat) :
    List.Pairwise selOrder (selectLoaded loaded query budget).documents := by
  dsimp only [selectLoaded, applyBudget]
  obtain ⟨sub, hsub, he⟩ := applyBudgetAux_selected_shape budget
    (List.insertionSort scoredLe (loaded.map (scoreDoc query))) 0
  rw [he]
  have hsorted : List.Pairwise scoredLe
      (List.insertionSort scoredLe (loaded.map (scoreDoc query))) :=
    List.sorted_insertionSort scoredLe (loaded.map (scoreDoc query))
  have hpsub : List.Pairwise scoredLe sub := hsorted.sublist hsub
  rw [List.pairwise_map]
  refine hpsub.imp ?_
  intro a b hab
  dsimp only [selOrder, toSelected]
  rcases hab with h | ⟨h1, h2⟩
  · exact ⟨le_of_lt h, fun he' => absurd he' (ne_of_gt h)⟩
  · exact ⟨le_of_eq h1.symm, fun _ => h2⟩

theorem selectLoaded_selected_count (loaded : List Document) (query : Query) (budget : Nat) :
    (selectLoaded loaded query budget).selection.documents_selected
      = (selectLoaded loaded query budget).documents.length := by
  dsimp only [selectLoaded, applyBudget]
  exact applyBudgetAux_selected_length budget _ 0

/-- **C5**: every `SelectionResult` returned by `ContextSelector::select` has
its documents array monotone non-increasing in score, with ids in ascending
order among entries of equal score.  (Scores are embedded as exact
rationals; the v0 score comparator's NaN fallback is unreachable.) -/
theorem select_documents_sorted (sha : List Nat → List Nat)
    (fs : String → Except LoadError Document) (root : String)
    (manifest : List ManifestDocumentEntry) (query : Query) (budget : Nat) :
    ∀ r : SelectionResult, select sha fs root manifest query budget = .ok r →
      List.Pairwise selOrder r.documents := by
  intro r hr
  obtain ⟨loaded, _, hre⟩ := (select_ok_iff sha fs root manifest query budget r).mp hr
  subst hre
  exact selectLoaded_pairwise loaded query budget

/-- Witness for C5 at the concrete toy cache. -/
theorem select_documents_sorted_witness :
    List.Pairwise selOrder (selectLoaded [toyDoc] (queryNew "x") 7).documents :=
  select_documents_sorted toyHash toyFs "cache" [toyEntry] (queryNew "x") 7
    (selectLoaded [toyDoc] (queryNew "x") 7) rfl

/-- **C7** (amended): with budget 0 selection still succeeds (no
`InvalidBudget`, no other error) and uses zero tokens; every admitted
document has zero tokens, i.e. empty content — so when no loaded document
has empty content, nothing is selected.  The original claim fails because a
zero-token document is admitted at budget 0. -/
theorem select_budget_zero (sha : List Nat → List Nat)
    (fs : String → Except LoadError Document) (root : String)
    (manifest : List ManifestDocumentEntry) (query : Query) :
    ∀ loaded, loadDocuments sha fs root manifest = .ok loaded →
      select sha fs root manifest query 0 = .ok (selectLoaded loaded query 0) ∧
      (selectLoaded loaded query 0).selection.tokens_used = 0 ∧
      (∀ sd ∈ (selectLoaded loaded query 0).documents, sd.tokens = 0) ∧
      ((∀ d ∈ loaded, d.content ≠ "") →
        (selectLoaded loaded query 0).documents = [] ∧
        (selectLoaded loaded query 0).selection.documents_selected = 0) := by
  intro loaded hl
  have hsel : select sha fs root manifest query 0 = .ok (selectLoaded loaded query 0) := by
    unfold select
    rw [hl]
  have htok := selectLoaded_tokens loaded query 0
  have htu : (selectLoaded loaded query 0).selection.tokens_used = 0 := Nat.le_zero.mp htok.1
  have hsum : ((selectLoaded loaded query 0).documents.map (fun d => d.tokens)).sum = 0 := by
    rw [← htok.2]
    exact htu
  have hall : ∀ sd ∈ (selectLoaded loaded query 0).documents, sd.tokens = 0 := by
    intro sd hsd
    exact List.sum_eq_zero_iff.mp hsum _ (List.mem_map_of_mem _ hsd)
  refine ⟨hsel, htu, hall, ?_⟩
  intro hne
  have hdocs : (selectLoaded loaded query 0).documents = [] := by
    cases hd : (selectLoaded loaded query 0).documents with
    | nil => rfl
    | cons sd tl =>
      have hmem : sd ∈ (selectLoaded loaded query 0).documents := by
        rw [hd]
        exact List.mem_cons_self sd tl
      obtain ⟨d, hdmem, hsd⟩ := selectLoaded_documents_mem loaded query 0 sd hmem
      have h0 : sd.tokens = 0 := hall sd hmem
      have hct : sd.tokens = countTokens d.content := by
        rw [hsd]
        rfl
      exact absurd (hct ▸ h0) (countTokens_ne_zero d.content (hne d hdmem))
  refine ⟨hdocs, ?_⟩
  rw [selectLoaded_selected_count, hdocs]
  rfl

/-- Witness for C7's amended statement at a concrete cache with one
non-empty document. -/
theorem select_budget_zero_witness :
    select toyHash toyFs2 "cache" [toyEntry2] (queryNew "x") 0
        = .ok (selectLoaded [toyDoc2] (queryNew "x") 0) ∧
    (selectLoaded [toyDoc2] (queryNew "x") 0).documents = [] ∧
    (selectLoaded [toyDoc2] (queryNew "x") 0).selection.documents_selected = 0 := by
  obtain ⟨h1, _, _, h4⟩ :=
    select_budget_zero toyHash toyFs2 "cache" [toyEntry2] (queryNew "x") [toyDoc2] (by rfl)
  have h5 := h4 (by
    intro d hd
    rw [List.mem_singleton] at hd
    subst hd
    decide)
  exact ⟨h1, h5.1, h5.2⟩

/-- Counterexample to C7 as stated: a cache whose single document has empty
content loads successfully, and selection with budget 0 admits it, so
`documents_selected` is 1, not 0. -/
theorem select_budget_zero_counterexample :
    loadDocuments toyHash toyFs "cache" [toyEntry] = .ok [toyDoc] ∧
    (selectLoaded [toyDoc] (queryNew "x") 0).selection.documents_selected = 1 ∧
    (selectLoaded [toyDoc] (queryNew "x") 0).documents ≠ [] := by
  refine ⟨by decide, by decide, by decide⟩

theorem processDocs_hbytes :
    ∀ (l : List Document) (seen : List String) (h0 hb : List Nat)
      (ctxs : List (Document × ManifestDocumentEntry)) (idx : List (String × String)),
      processDocs seen h0 l = .ok (hb, ctxs, idx) →
      hb = h0 ++ (l.map (fun d => utf8Encode (d.id ++ ":" ++ d.version))).flatten := by
  intro l
  induction l with
  | nil =>
    intro seen h0 hb ctxs idx h
    simp only [processDocs, Except.ok.injEq, Prod.mk.injEq] at h
    rw [← h.1]
    simp
  | cons doc rest ih =>
    intro seen h0 hb ctxs idx h
    simp only [processDocs] at h
    cases hp : processDoc seen doc with
    | error e =>
      rw [hp] at h
      simp at h
    | ok pr =>
      obtain ⟨stem, entry⟩ := pr
      rw [hp] at h
      dsimp only at h
      cases hr : processDocs (stem :: seen) (h0 ++ utf8Encode (doc.id ++ ":" ++ doc.version)) rest with
      | error e =>
        rw [hr] at h
        simp at h
      | ok trip =>
        obtain ⟨hb', ctxs', idx'⟩ := trip
        rw [hr] at h
        simp only [Except.ok.injEq, Prod.mk.injEq] at h
        obtain ⟨h1, -, -⟩ := h
        rw [← h1, ih _ _ _ _ _ hr]
        simp [List.append_assoc]

theorem buildSorted_ok (sha : List Nat → List Nat) (config : CacheBuildConfig)
    (sorted_docs : List Document) (out : BuildOutput) :
    buildSorted sha config sorted_docs = .ok out →
    ∃ hb ctxs idx, findAdjacentDup sorted_docs = none ∧
      processDocs [] (utf8Encode (configJson config)) sorted_docs = .ok (hb, ctxs, idx) ∧
      out.cache_version = "sha256:" ++ hexEncode (sha hb) := by
  intro h
  unfold buildSorted at h
  cases hf : findAdjacentDup sorted_docs with
  | some i =>
    rw [hf] at h
    simp at h
  | none =>
    rw [hf] at h
    cases hp : processDocs [] (utf8Encode (configJson config)) sorted_docs with
    | error e =>
      rw [hp] at h
      simp at h
    | ok trip =>
      obtain ⟨hb, ctxs, idx⟩ := trip
      rw [hp] at h
      refine ⟨hb, ctxs, idx, rfl, rfl, ?_⟩
      simp only [Except.ok.injEq] at h
      rw [← h]

theorem sorted_idLt_of_nodup {l : List Document} (hs : List.Sorted idLe l)
    (hn : (l.map Document.id).Nodup) : List.Sorted idLt l := by
  have hne : List.Pairwise (fun a b : Document => a.id ≠ b.id) l := List.pairwise_map.mp hn
  exact (hs.and hne).imp (fun h => lt_of_le_of_ne h.1 h.2)

theorem sortDocs_eq_of_perm {docs docs' : List Document} (hperm : docs'.Perm docs)
    (hnodup : (docs.map Document.id).Nodup) : sortDocs docs' = sortDocs docs := by
  have hp : (sortDocs docs').Perm (sortDocs docs) :=
    (List.perm_insertionSort idLe docs').trans
      (hperm.trans (List.perm_insertionSort idLe docs).symm)
  have hnodup2 : ((sortDocs docs).map Document.id).Nodup :=
    (List.Perm.nodup_iff ((List.perm_insertionSort idLe docs).map Document.id)).mpr hnodup
  have hnodup3 : ((sortDocs docs').map Document.id).Nodup :=
    (List.Perm.nodup_iff (hp.map Document.id)).mpr hnodup2
  exact List.eq_of_perm_of_sorted hp
    (sorted_idLt_of_nodup (List.sorted_insertionSort idLe docs') hnodup3)
    (sorted_idLt_of_nodup (List.sorted_insertionSort idLe docs) hnodup2)

theorem findAdjacentDup_none_iff :
    ∀ l : List Document, List.Sorted idLe l →
      (findAdjacentDup l = none ↔ (l.map Document.id).Nodup) := by
  intro l
  induction l with
  | nil =>
    intro _
    simp [findAdjacentDup]
  | cons a rest ih =>
    intro hs
    cases rest with
    | nil => simp [findAdjacentDup]
    | cons b rest' =>
      by_cases hab : a.id = b.id
      · constructor
        · intro hf
          simp only [findAdjacentDup, if_pos hab] at hf
          exact (Option.some_ne_none _ hf).elim
        · intro hn
          exfalso
          rw [List.map_cons, List.nodup_cons] at hn
          exact hn.1 (by rw [List.map_cons]; exact hab ▸ List.mem_cons_self _ _)
      · have hIH := ih hs.of_cons
        constructor
        · intro hf
          have hf' : findAdjacentDup (b :: rest') = none := by
            simpa only [findAdjacentDup, if_neg hab] using hf
          have hrest := hIH.mp hf'
          rw [List.map_cons, List.nodup_cons]
          refine ⟨?_, hrest⟩
          intro hmem
          obtain ⟨c, hc, he⟩ := List.mem_map.mp hmem
          have halt : a.id < b.id :=
            lt_of_le_of_ne (List.rel_of_sorted_cons hs b (List.mem_cons_self _ _)) hab
          rcases List.mem_cons.mp hc with hcb | hcr
          · subst hcb
            exact absurd he (ne_of_gt halt)
          · have hbc : b.id ≤ c.id := List.rel_of_sorted_cons hs.of_cons c hcr
            exact absurd he (ne_of_gt (lt_of_lt_of_le halt hbc))
        · intro hn
          rw [List.map_cons, List.nodup_cons] at hn
          have hf' : findAdjacentDup (b :: rest') = none := hIH.mpr hn.2
          simpa only [findAdjacentDup, if_neg hab] using hf'

/-- **C1**: when `CacheBuilder::build` returns a manifest, its
`cache_version` is `"sha256:"` followed by the lower-case hex digest of the
canonical JSON serialization of the build config concatenated with the
UTF-8 bytes of `id ++ ":" ++ version` for each document in ascending-id
order, with no separator and no trailing newline.  (`sortDocs documents` is
the documents in ascending-id order: the last two conjuncts.) -/
theorem build_cache_version_formula (sha : List Nat → List Nat)
    (config : CacheBuildConfig) (documents : List Document) (out : BuildOutput) :
    build sha config documents = .ok out →
    out.cache_version
      = "sha256:" ++ hexEncode (sha (utf8Encode (configJson config) ++
          ((sortDocs documents).map (fun d => utf8Encode (d.id ++ ":" ++ d.version))).flatten)) ∧
    (sortDocs documents).Perm documents ∧
    List.Sorted idLe (sortDocs documents) := by
  intro h
  unfold build at h
  obtain ⟨hb, ctxs, idx, -, hp, hv⟩ := buildSorted_ok sha config (sortDocs documents) out h
  refine ⟨?_, List.perm_insertionSort idLe documents, List.sorted_insertionSort idLe documents⟩
  rw [hv, processDocs_hbytes _ _ _ _ _ _ hp]

/-- **C3**: for documents with unique ids, any permutation of the input list
yields the identical build result — same cache version, document count,
manifest entries, index and payload files (`created_at` is outside the
model). -/
theorem build_perm_invariant (sha : List Nat → List Nat) (config : CacheBuildConfig)
    (docs docs' : List Document) (hperm : docs'.Perm docs)
    (hnodup : (docs.map Document.id).Nodup) :
    build sha config docs' = build sha config docs := by
  unfold build
  rw [sortDocs_eq_of_perm hperm hnodup]

/-- **C9**: duplicate document ids make `build` fail with
`DuplicateDocumentId` — with no hypothesis on version formats or filename
stems, since the adjacent-pair duplicate scan runs before any per-document
version check. -/
theorem build_duplicate_id (sha : List Nat → List Nat) (config : CacheBuildConfig)
    (docs : List Document) (hdup : ¬ (docs.map Document.id).Nodup) :
    ∃ i, build sha config docs = .error (.DuplicateDocumentId i) := by
  have hs : List.Sorted idLe (sortDocs docs) := List.sorted_insertionSort idLe docs
  have hnd : ¬ ((sortDocs docs).map Document.id).Nodup := by
    intro hn
    exact hdup ((List.Perm.nodup_iff ((List.perm_insertionSort idLe docs).map Document.id)).mp hn)
  cases hf : findAdjacentDup (sortDocs docs) with
  | none => exact absurd ((findAdjacentDup_none_iff (sortDocs docs) hs).mp hf) hnd
  | some i =>
    refine ⟨i, ?_⟩
    unfold build buildSorted
    rw [hf]

/-- Witness for C1 at a concrete two-document build. -/
theorem build_cache_version_formula_witness :
    (build toyHash toyConfig [toyDocB, toyDocA]).map (fun o => o.cache_version)
        = .ok ("sha256:" ++ hexEncode (toyHash (utf8Encode (configJson toyConfig) ++
            ((sortDocs [toyDocB, toyDocA]).map
              (fun d => utf8Encode (d.id ++ ":" ++ d.version))).flatten))) ∧
    (sortDocs [toyDocB, toyDocA]).Perm [toyDocB, toyDocA] := by
  have hex : ∃ out, build toyHash toyConfig [toyDocB, toyDocA] = .ok out := by
    cases hb : build toyHash toyConfig [toyDocB, toyDocA] with
    | error e =>
      have hsome : (build toyHash toyConfig [toyDocB, toyDocA]).toOption.isSome = true := by decide
      rw [hb] at hsome
      exact absurd hsome (by simp [Except.toOption])
    | ok out => exact ⟨out, rfl⟩
  obtain ⟨out, hb⟩ := hex
  have h := build_cache_version_formula toyHash toyConfig [toyDocB, toyDocA] out hb
  refine ⟨?_, h.2.1⟩
  rw [hb]
  simp only [Except.map]
  rw [h.1]

/-- Witness for C3 at a concrete transposition. -/
theorem build_perm_invariant_witness :
    build toyHash toyConfig [toyDocB, toyDocA] = build toyHash toyConfig [toyDocA, toyDocB] :=
  build_perm_invariant toyHash toyConfig [toyDocA, toyDocB] [toyDocB, toyDocA]
    (List.Perm.swap toyDocA toyDocB []) (by decide)

/-- Witness for C9: a duplicate id coexisting with a malformed version still
fails with `DuplicateDocumentId`. -/
theorem build_duplicate_id_witness :
    ∃ i, build toyHash toyConfig [toyDocA, toyDupA] = .error (.DuplicateDocumentId i) :=
  build_duplicate_id toyHash toyConfig [toyDocA, toyDupA] (by decide)

theorem versionFrag_eq (doc : Document) (fh : String)
    (hs : stripPrefixStr "sha256:" doc.version = some fh) : versionFrag doc = fh := by
  unfold versionFrag
  rw [hs]

theorem processDoc_short (seen : List String) (doc : Document) (fh : String)
    (hs : stripPrefixStr "sha256:" doc.version = some fh) (hlen : fh.length < 12) :
    processDoc seen doc = .error (.FilenameCollision fh) := by
  unfold processDoc
  rw [hs]
  dsimp only
  rw [if_pos hlen]

theorem processDoc_long (seen : List String) (doc : Document) (fh : String)
    (hs : stripPrefixStr "sha256:" doc.version = some fh) (hlen : ¬ fh.length < 12)
    (hmem : takeStr 12 fh ∉ seen) :
    processDoc seen doc = .ok (takeStr 12 fh,
      { id := doc.id, version := doc.version,
        file := "documents/" ++ (takeStr 12 fh ++ ".json") }) := by
  unfold processDoc
  rw [hs]
  dsimp only
  rw [if_neg hlen, if_neg hmem]

theorem processDocs_short_collision :
    ∀ (l : List Document) (seen : List String) (h0 : List Nat),
      (∀ d ∈ l, ∃ fh, stripPrefixStr "sha256:" d.version = some fh) →
      (∃ d ∈ l, (versionFrag d).length < 12) →
      List.Pairwise (fun a b => versionStem a ≠ versionStem b) l →
      (∀ d ∈ l, versionStem d ∉ seen) →
      ∃ frag, processDocs seen h0 l = .error (.FilenameCollision frag) ∧
        frag.length < 12 ∧ ∃ d ∈ l, stripPrefixStr "sha256:" d.version = some frag := by
  intro l
  induction l with
  | nil =>
    intro seen h0 _ hshort _ _
    obtain ⟨d, hd, -⟩ := hshort
    exact absurd hd (List.not_mem_nil d)
  | cons doc rest ih =>
    intro seen h0 hpre hshort hpair hseen
    obtain ⟨fh, hfh⟩ := hpre doc (List.mem_cons_self _ _)
    have hfrag : versionFrag doc = fh := versionFrag_eq doc fh hfh
    by_cases hlen : fh.length < 12
    · refine ⟨fh, ?_, hlen, doc, List.mem_cons_self _ _, hfh⟩
      simp only [processDocs]
      rw [processDoc_short seen doc fh hfh hlen]
    · have hstem : versionStem doc = takeStr 12 fh := by rw [versionStem, hfrag]
      have hmem : takeStr 12 fh ∉ seen := hstem ▸ hseen doc (List.mem_cons_self _ _)
      have hshort' : ∃ d ∈ rest, (versionFrag d).length < 12 := by
        obtain ⟨d, hd, hds⟩ := hshort
        rcases List.mem_cons.mp hd with hdd | hdr
        · subst hdd
          rw [hfrag] at hds
          exact absurd hds hlen
        · exact ⟨d, hdr, hds⟩
      have hseen' : ∀ d ∈ rest, versionStem d ∉ takeStr 12 fh :: seen := by
        intro d hd
        rw [List.mem_cons]
        rintro (he | hin)
        · exact List.rel_of_pairwise_cons hpair hd (by rw [hstem]; exact he.symm)
        · exact hseen d (List.mem_cons_of_mem _ hd) hin
      obtain ⟨frag, hpd, hflen, d, hd, hds⟩ := ih (takeStr 12 fh :: seen)
        (h0 ++ utf8Encode (doc.id ++ ":" ++ doc.version))
        (fun d hd => hpre d (List.mem_cons_of_mem _ hd)) hshort' hpair.of_cons hseen'
      refine ⟨frag, ?_, hflen, d, List.mem_cons_of_mem _ hd, hds⟩
      simp only [processDocs]
      rw [processDoc_long seen doc fh hfh hlen hmem]
      dsimp only
      rw [hpd]

/-- **C10** (amended): with unique ids, every version carrying the `sha256:`
prefix, some hash fragment shorter than 12 characters, and no two documents
sharing a filename stem, `build` fails with `FilenameCollision` carrying one
of the short fragments — not with `InvalidVersionFormat`.  (The original
claim fails when another document's version lacks the prefix: that document
is hit first and yields `InvalidVersionFormat`.) -/
theorem build_short_fragment_collision (sha : List Nat → List Nat)
    (config : CacheBuildConfig) (docs : List Document)
    (hnodup : (docs.map Document.id).Nodup)
    (hpre : ∀ d ∈ docs, ∃ fh, stripPrefixStr "sha256:" d.version = some fh)
    (hshort : ∃ d ∈ docs, (versionFrag d).length < 12)
    (hstems : List.Pairwise (fun a b => versionStem a ≠ versionStem b) docs) :
    ∃ frag, build sha config docs = .error (.FilenameCollision frag) ∧
      frag.length < 12 ∧ ∃ d ∈ docs, stripPrefixStr "sha256:" d.version = some frag := by
  have hperm : (sortDocs docs).Perm docs := List.perm_insertionSort idLe docs
  have hnodup2 : ((sortDocs docs).map Document.id).Nodup :=
    (List.Perm.nodup_iff (hperm.map Document.id)).mpr hnodup
  have hf : findAdjacentDup (sortDocs docs) = none :=
    (findAdjacentDup_none_iff (sortDocs docs) (List.sorted_insertionSort idLe docs)).mpr hnodup2
  have hpre' : ∀ d ∈ sortDocs docs, ∃ fh, stripPrefixStr "sha256:" d.version = some fh :=
    fun d hd => hpre d (hperm.subset hd)
  have hshort' : ∃ d ∈ sortDocs docs, (versionFrag d).length < 12 := by
    obtain ⟨d, hd, hds⟩ := hshort
    exact ⟨d, hperm.mem_iff.mpr hd, hds⟩
  have hstems' : List.Pairwise (fun a b => versionStem a ≠ versionStem b) (sortDocs docs) :=
    (hperm.pairwise_iff (fun h => Ne.symm h)).mpr hstems
  obtain ⟨frag, hpd, hlen, d, hd, hds⟩ := processDocs_short_collision (sortDocs docs) []
    (utf8Encode (configJson config)) hpre' hshort' hstems'
    (fun d _ => List.not_mem_nil (versionStem d))
  refine ⟨frag, ?_, hlen, d, hperm.subset hd, hds⟩
  unfold build buildSorted
  rw [hf]
  dsimp only
  rw [hpd]

/-- Witness for C10's amended statement at a single short-fragment document. -/
theorem build_short_fragment_collision_witness :
    ∃ frag, build toyHash toyConfig [toyShortDoc] = .error (.FilenameCollision frag) ∧
      frag.length < 12 ∧
      ∃ d ∈ [toyShortDoc], stripPrefixStr "sha256:" d.version = some frag := by
  apply build_short_fragment_collision
  · decide
  · intro d hd
    rw [List.mem_singleton] at hd
    subst hd
    exact ⟨"ab", by decide⟩
  · exact ⟨toyShortDoc, List.mem_singleton_self _, by decide⟩
  · exact List.pairwise_singleton _ _

/-- Counterexample to C10 as stated: ids are unique and `toyShortDoc`'s
version has the `sha256:` prefix with a 2-character fragment, yet `build`
fails with `InvalidVersionFormat` (for the other document, whose version
lacks the prefix), not `FilenameCollision`. -/
theorem build_short_fragment_counterexample :
    ([toyBadDoc, toyShortDoc].map Document.id).Nodup ∧
    stripPrefixStr "sha256:" toyShortDoc.version = some "ab" ∧
    ("ab" : String).length < 12 ∧
    build toyHash toyConfig [toyBadDoc, toyShortDoc]
      = .error (.InvalidVersionFormat "xyz") := by
  refine ⟨by decide, by decide, by decide, by decide⟩

theorem loadDocuments_ok_of_valid (sha : List Nat → List Nat)
    (fs : String → Except LoadError Document) (root : String) :
    ∀ manifest : List ManifestDocumentEntry,
      (∀ e ∈ manifest, ∀ d, fs (root ++ "/" ++ e.file) = .ok d →
        d.id = e.id ∧ fromContent sha d.content = e.version) →
      (∀ e ∈ manifest, ∃ d, fs (root ++ "/" ++ e.file) = .ok d) →
      ∃ docs, loadDocuments sha fs root manifest = .ok docs ∧
        List.Forall₂ (fun e d => fs (root ++ "/" ++ e.file) = .ok d) manifest docs := by
  intro manifest
  induction manifest with
  | nil => intro _ _; exact ⟨[], rfl, List.Forall₂.nil⟩
  | cons e rest ih =>
    intro hvalid hreads
    obtain ⟨d, hd⟩ := hreads e (List.mem_cons_self _ _)
    obtain ⟨hid, hver⟩ := hvalid e (List.mem_cons_self _ _) d hd
    obtain ⟨docs, hdocs, hf2⟩ := ih (fun e' he' => hvalid e' (List.mem_cons_of_mem _ he'))
      (fun e' he' => hreads e' (List.mem_cons_of_mem _ he'))
    refine ⟨d :: docs, ?_, List.Forall₂.cons hd hf2⟩
    simp only [loadDocuments]
    rw [hd]
    dsimp only
    rw [if_neg (not_not_intro hid), if_neg (not_not_intro hver), hdocs]

theorem loadDocuments_invalidData (sha : List Nat → List Nat)
    (fs : String → Except LoadError Document) (root : String) :
    ∀ manifest : List ManifestDocumentEntry,
      (∀ e ∈ manifest, ∃ d, fs (root ++ "/" ++ e.file) = .ok d) →
      (∃ e ∈ manifest, ∃ d, fs (root ++ "/" ++ e.file) = .ok d ∧
        (d.id ≠ e.id ∨ fromContent sha d.content ≠ e.version)) →
      ∃ msg, loadDocuments sha fs root manifest = .error (.invalidData msg) := by
  intro manifest
  induction manifest with
  | nil =>
    intro _ hbad
    obtain ⟨e, he, -⟩ := hbad
    exact absurd he (List.not_mem_nil e)
  | cons e rest ih =>
    intro hreads hbad
    obtain ⟨d, hd⟩ := hreads e (List.mem_cons_self _ _)
    by_cases hid : d.id = e.id
    · by_cases hver : fromContent sha d.content = e.version
      · have hbad' : ∃ e' ∈ rest, ∃ d', fs (root ++ "/" ++ e'.file) = .ok d' ∧
            (d'.id ≠ e'.id ∨ fromContent sha d'.content ≠ e'.version) := by
          obtain ⟨e', he', d', hd', hmis⟩ := hbad
          rcases List.mem_cons.mp he' with hee | her
          · subst hee
            rw [hd] at hd'
            injection hd' with hdd
            subst hdd
            rcases hmis with h | h
            · exact absurd hid h
            · exact absurd hver h
          · exact ⟨e', her, d', hd', hmis⟩
        obtain ⟨msg, hmsg⟩ := ih (fun e' he' => hreads e' (List.mem_cons_of_mem _ he')) hbad'
        refine ⟨msg, ?_⟩
        simp only [loadDocuments]
        rw [hd]
        dsimp only
        rw [if_neg (not_not_intro hid), if_neg (not_not_intro hver), hmsg]
      · refine ⟨"Document version mismatch for " ++ e.id ++ ": manifest says " ++ e.version ++
          ", content hashes to " ++ fromContent sha d.content, ?_⟩
        simp only [loadDocuments]
        rw [hd]
        dsimp only
        rw [if_neg (not_not_intro hid), if_pos hver]
    · refine ⟨"Document ID mismatch", ?_⟩
      simp only [loadDocuments]
      rw [hd]
      dsimp only
      rw [if_pos hid]

/-- **C6**: when every manifest entry's payload file opens and parses, a
mismatch between any payload's id and its manifest entry, or between the
version recomputed from the payload's content and the manifest version,
makes `load_documents` fail with an `InvalidData`-kind error; when every
entry passes both checks it returns the payload documents in manifest
order. -/
theorem load_documents_checks (sha : List Nat → List Nat)
    (fs : String → Except LoadError Document) (root : String)
    (manifest : List ManifestDocumentEntry) :
    (∀ e ∈ manifest, ∃ d, fs (root ++ "/" ++ e.file) = .ok d) →
      ((∃ e ∈ manifest, ∃ d, fs (root ++ "/" ++ e.file) = .ok d ∧
          (d.id ≠ e.id ∨ fromContent sha d.content ≠ e.version)) →
        ∃ msg, loadDocuments sha fs root manifest = .error (.invalidData msg)) ∧
      ((∀ e ∈ manifest, ∀ d, fs (root ++ "/" ++ e.file) = .ok d →
          d.id = e.id ∧ fromContent sha d.content = e.version) →
        ∃ docs, loadDocuments sha fs root manifest = .ok docs ∧
          List.Forall₂ (fun e d => fs (root ++ "/" ++ e.file) = .ok d) manifest docs) :=
  fun hreads =>
    ⟨loadDocuments_invalidData sha fs root manifest hreads,
     fun hvalid => loadDocuments_ok_of_valid sha fs root manifest hvalid hreads⟩

/-- Witness for C6 at the concrete toy cache (all checks pass). -/
theorem load_documents_checks_witness :
    ∃ docs, loadDocuments toyHash toyFs "cache" [toyEntry] = .ok docs ∧
      List.Forall₂ (fun e d => toyFs ("cache" ++ "/" ++ e.file) = .ok d) [toyEntry] docs := by
  refine (load_documents_checks toyHash toyFs "cache" [toyEntry] ?_).2 ?_
  · intro e he
    rw [List.mem_singleton] at he
    subst he
    exact ⟨toyDoc, by decide⟩
  · intro e he d hd
    rw [List.mem_singleton] at he
    subst he
    have h2 : toyFs ("cache" ++ "/" ++ toyEntry.file) = .ok toyDoc := by decide
    rw [h2] at hd
    injection hd with hdd
    subst hdd
    exact ⟨by decide, by decide⟩

theorem stripPrefixComps_none_iff :
    ∀ root source : PathComps, stripPrefixComps root source = none ↔ ¬ root <+: source := by
  intro root
  induction root with
  | nil =>
    intro source
    simp [stripPrefixComps, List.nil_prefix]
  | cons r rs ih =>
    intro source
    cases source with
    | nil =>
      simp only [stripPrefixComps, List.prefix_nil]
      simp
    | cons c cs =>
      by_cases hrc : r = c
      · subst hrc
        simp only [stripPrefixComps, List.cons_prefix_cons]
        simp [ih cs]
      · simp only [stripPrefixComps, if_neg hrc, List.cons_prefix_cons]
        simp [hrc]

theorem normalizePath_ne_outside (rel : PathComps) :
    normalizePath rel ≠ .error .OutsideRoot := by
  unfold normalizePath
  cases compsToStr rel <;> simp

/-- **C8** (amended): `from_path` fails with `OutsideRoot` exactly when the
root's components are not a prefix of the source's; given the relative
components, it fails with `InvalidUtf8` exactly when their UTF-8 decoding
fails; and otherwise it returns the rendered relative path with backslashes
replaced by slashes, leading `./` runs trimmed, and letters lower-cased by
the language's Unicode-aware `to_lowercase` (not ASCII-only folding). -/
theorem from_path_normalization (root source : PathComps) :
    (fromPath root source = .error .OutsideRoot ↔ ¬ root <+: source) ∧
    (∀ rel, stripPrefixComps root source = some rel →
      (compsToStr rel = none → fromPath root source = .error .InvalidUtf8) ∧
      (∀ s, compsToStr rel = some s →
        fromPath root source
          = .ok (toLowercase (List.asString (trimDotSlash (replaceBackslash s.toList)))))) := by
  constructor
  · rw [← stripPrefixComps_none_iff root source]
    constructor
    · intro h
      cases hs : stripPrefixComps root source with
      | none => rfl
      | some rel =>
        unfold fromPath at h
        rw [hs] at h
        exact absurd h (normalizePath_ne_outside rel)
    · intro h
      unfold fromPath
      rw [h]
  · intro rel hrel
    constructor
    · intro hnone
      unfold fromPath
      rw [hrel]
      dsimp only
      unfold normalizePath
      rw [hnone]
    · intro s hs
      unfold fromPath
      rw [hrel]
      dsimp only
      unfold normalizePath
      rw [hs]

/-- Witness for C8's amended statement: root `"r"`, source `"r/Doc"`,
normalized id `"doc"`. -/
theorem from_path_normalization_witness :
    fromPath [[114]] [[114], [68, 111, 99]]
        = .ok (toLowercase (List.asString (trimDotSlash (replaceBackslash ("Doc").toList)))) ∧
    toLowercase (List.asString (trimDotSlash (replaceBackslash ("Doc").toList))) = "doc" :=
  ⟨((from_path_normalization [[114]] [[114], [68, 111, 99]]).2
      [[68, 111, 99]] (by decide)).2 "Doc" (by decide),
   by decide⟩

/-- Counterexample to C8 as stated: on the relative path `"././É"`
(components `"."`, `"."`, `"É"` with `É` the bytes `0xC3 0x89`) under the
empty root, the code trims every leading `./` and lower-cases with the
language's Unicode-aware `to_lowercase`, returning `"é"`; the claim's
reading — one leading `./` trimmed, ASCII-only case folding — would return
`"./É"`. -/
theorem from_path_counterexample :
    fromPath [] [[46], [46], [195, 137]] = .ok "é" ∧
    fromPathSpec [] [[46], [46], [195, 137]] = .ok "./É" ∧
    fromPath [] [[46], [46], [195, 137]] ≠ fromPathSpec [] [[46], [46], [195, 137]] := by
  refine ⟨by decide, by decide, by decide⟩

end ContextCore
